import Mathlib

set_option maxRecDepth 8000

/-!
Verification of the `dudist` distribution calculator and box-plot renderer
(`src/main.rs`), via a shallow embedding.

Modelling conventions:
* `u64` values are `ℕ`; `u64` addition wraps modulo `2^64` (Rust release
  semantics), made explicit as `wrapAdd`.
* `usize` subtraction likewise wraps modulo `2^64` (`usizeSub`).
* `f64` values are rationals, with the `u64 → f64` casts made explicit:
  `toF64` implements the IEEE-754 conversion (round to nearest, ties to
  even, 53 significant bits), so casts of integers above `2^53` round —
  e.g. `2^64 - 2 ↦ 2^64` and `2^53 + 1 ↦ 2^53`. The subsequent halving
  `/ 2.0` only decrements the exponent, hence is exact in `f64`, and is
  modelled by exact division by 2. In the position computation the `f64`
  division and multiplication are modelled exactly over `ℚ` (the values
  the renderer claims exercise there are exactly representable), and the
  two IEEE special cases that do arise — division by zero producing
  `NaN`/`+∞` and Rust's saturating `as usize` cast (`NaN ↦ 0`,
  `+∞ ↦ usize::MAX`) — are modelled explicitly in `posn`.
* A Rust panic (out-of-bounds index) is an `Except.error` outcome.
* `Vec::sort` is modelled by `List.insertionSort (· ≤ ·)`: the ascending
  sorted permutation of a list of naturals is unique, so any correct sort
  yields the same list.
-/

/-- `2^64`, the modulus of `u64`/`usize` arithmetic. -/
def u64Mod : ℕ := 2 ^ 64

/-- `usize::MAX = 2^64 - 1`, the saturation bound of `as usize` casts. -/
def usizeMax : ℕ := 2 ^ 64 - 1

/-- Wrapping `u64` addition: `a.wrapping_add(b)` / release-mode `a + b`. -/
def wrapAdd (a b : ℕ) : ℕ := (a + b) % u64Mod

/-- Wrapping `usize` subtraction of a constant, release-mode `a - b` (assumes
`a < 2^64`, which holds for the `u16`-derived widths the program uses). -/
def usizeSub (a b : ℕ) : ℕ := (a + u64Mod - b) % u64Mod

/-- The `Distribution` struct of `src/main.rs`: `min`/`max` are `u64`,
the three interpolated statistics are `f64` (modelled as `ℚ`). -/
structure Distribution where
  min : ℕ
  max : ℕ
  median : ℚ
  lower_quartile : ℚ
  upper_quartile : ℚ
deriving DecidableEq

/-- A Rust panic outcome. The only panic the calculator can reach is the
out-of-bounds index `sizes[0]` on an empty vector. -/
inductive Panic where
  | indexOutOfBounds
deriving DecidableEq

instance {ε α : Type} [DecidableEq ε] [DecidableEq α] : DecidableEq (Except ε α)
  | .ok a, .ok b => decidable_of_iff (a = b) (by simp)
  | .ok _, .error _ => .isFalse (by simp)
  | .error _, .ok _ => .isFalse (by simp)
  | .error a, .error b => decidable_of_iff (a = b) (by simp)

/-- `sizes.sort()`: the ascending sort of the input sizes. -/
def sortedSizes (sizes : List ℕ) : List ℕ := List.insertionSort (· ≤ ·) sizes

/-- `⌊log₂ n⌋` by fuelled structural recursion, so that proofs can evaluate
it; any fuel at least `⌊log₂ n⌋` gives the exact value, and the fuel used
below is `n` itself. -/
def log2Fuel : ℕ → ℕ → ℕ
  | 0, _ => 0
  | fuel + 1, n => if n ≤ 1 then 0 else log2Fuel fuel (n / 2) + 1

/-- `⌊log₂ n⌋` (0 for `n ≤ 1`): the exponent of the binade of `n`. -/
def floorLog2 (n : ℕ) : ℕ := log2Fuel n n

/-- The IEEE-754 `u64 → f64` conversion `n as f64`, as the exact natural
number value of the resulting double (no value in the `u64`-derived range
reaches `f64`'s overflow threshold): integers below `2^53` are exactly
representable; above, the result is `n` rounded to the nearest multiple of
the unit in the last place `2^(⌊log₂ n⌋ - 52)`, ties to even. -/
def toF64 (n : ℕ) : ℕ :=
  if n < 2 ^ 53 then n
  else
    let ulp := 2 ^ (floorLog2 n - 52)
    let q := n / ulp
    let r := n % ulp
    if r * 2 < ulp then q * ulp
    else if r * 2 > ulp then (q + 1) * ulp
    else if q % 2 = 0 then q * ulp else (q + 1) * ulp

/-- `(sizes[i-1] + sizes[i]) as f64 / 2.0`: the `u64` addition wraps, the
cast to `f64` rounds per `toF64`, and the halving is exact. -/
def avgWrap (a b : ℕ) : ℚ := (toF64 (wrapAdd a b) : ℚ) / 2

/-- The `median` field initializer of `Distribution::from_vec`, as a function
of the sorted list `s` (`sizes.len() % 2 == 0` branch on the averaged pair,
else the element at `sizes.len() / 2` cast with `as f64`). -/
def medianOf (s : List ℕ) : ℚ :=
  if s.length % 2 = 0 then
    avgWrap (s.getD (s.length / 2 - 1) 0) (s.getD (s.length / 2) 0)
  else
    (toF64 (s.getD (s.length / 2) 0) : ℚ)

/-- The `lower_quartile` field initializer of `Distribution::from_vec`
(`sizes.len() % 4 == 0` branch on the pair at `len/4 - 1, len/4`, else the
element at `len/4` cast with `as f64`). -/
def lowerQuartileOf (s : List ℕ) : ℚ :=
  if s.length % 4 = 0 then
    avgWrap (s.getD (s.length / 4 - 1) 0) (s.getD (s.length / 4) 0)
  else
    (toF64 (s.getD (s.length / 4) 0) : ℚ)

/-- The `upper_quartile` field initializer of `Distribution::from_vec`
(`sizes.len() % 4 == 0` branch on the pair at `len*3/4 - 1, len*3/4`, else
the element at `len*3/4` cast with `as f64`). -/
def upperQuartileOf (s : List ℕ) : ℚ :=
  if s.length % 4 = 0 then
    avgWrap (s.getD (s.length * 3 / 4 - 1) 0) (s.getD (s.length * 3 / 4) 0)
  else
    (toF64 (s.getD (s.length * 3 / 4) 0) : ℚ)

/-- `Distribution::from_vec` (src/main.rs:35-60): sort the sizes, take
`min = sizes[0]`, `max = sizes[len-1]`, and the three statistics. The first
field initializer evaluated is `min: sizes[0]`, which on an empty vector is
an out-of-bounds index, i.e. a panic. All other indices are in bounds for a
non-empty vector, so `getD _ 0` coincides with the Rust indexing there. -/
def from_vec (sizes : List ℕ) : Except Panic Distribution :=
  let s := sortedSizes sizes
  if s.length = 0 then
    .error .indexOutOfBounds
  else
    .ok ⟨s.getD 0 0, s.getD (s.length - 1) 0,
         medianOf s, lowerQuartileOf s, upperQuartileOf s⟩

/-- No averaged pair of adjacent sorted elements overflows the `u64`
addition in `from_vec`: the pair summed for the median (when the length is
even) and the pairs summed for both quartiles (when the length is divisible
by 4) each have sum `< 2^64`. -/
def pairsNoOverflow (sizes : List ℕ) : Prop :=
  ((sortedSizes sizes).length % 2 = 0 →
    (sortedSizes sizes).getD ((sortedSizes sizes).length / 2 - 1) 0 +
      (sortedSizes sizes).getD ((sortedSizes sizes).length / 2) 0 < u64Mod) ∧
  ((sortedSizes sizes).length % 4 = 0 →
    (sortedSizes sizes).getD ((sortedSizes sizes).length / 4 - 1) 0 +
      (sortedSizes sizes).getD ((sortedSizes sizes).length / 4) 0 < u64Mod ∧
    (sortedSizes sizes).getD ((sortedSizes sizes).length * 3 / 4 - 1) 0 +
      (sortedSizes sizes).getD ((sortedSizes sizes).length * 3 / 4) 0 < u64Mod)

instance (sizes : List ℕ) : Decidable (pairsNoOverflow sizes) := by
  unfold pairsNoOverflow; infer_instance

/-- Every averaged pair of adjacent sorted elements has sum at most `2^53`:
then the `u64` addition cannot wrap and the `f64` cast of the sum is
exact. -/
def pairsFitF64 (sizes : List ℕ) : Prop :=
  ((sortedSizes sizes).length % 2 = 0 →
    (sortedSizes sizes).getD ((sortedSizes sizes).length / 2 - 1) 0 +
      (sortedSizes sizes).getD ((sortedSizes sizes).length / 2) 0 ≤ 2 ^ 53) ∧
  ((sortedSizes sizes).length % 4 = 0 →
    (sortedSizes sizes).getD ((sortedSizes sizes).length / 4 - 1) 0 +
      (sortedSizes sizes).getD ((sortedSizes sizes).length / 4) 0 ≤ 2 ^ 53 ∧
    (sortedSizes sizes).getD ((sortedSizes sizes).length * 3 / 4 - 1) 0 +
      (sortedSizes sizes).getD ((sortedSizes sizes).length * 3 / 4) 0 ≤ 2 ^ 53)

instance (sizes : List ℕ) : Decidable (pairsFitF64 sizes) := by
  unfold pairsFitF64; infer_instance

/-- The uniform index-selection rule as the spec states it (§4.1, claim C1):
`idx = n*m/d`; if `(n*m) mod d = 0` the statistic is the exact average of
the elements at `idx-1` and `idx`, else the element at `idx`. Written from
the spec's words, for comparison with the statistics computed by
`from_vec`. -/
def specStat (s : List ℕ) (m d : ℕ) : ℚ :=
  if s.length * m % d = 0 then
    ((s.getD (s.length * m / d - 1) 0 : ℚ) + (s.getD (s.length * m / d) 0 : ℚ)) / 2
  else
    (s.getD (s.length * m / d) 0 : ℚ)

/-- The three glyphs of the box plot plus the blank padding. -/
inductive Glyph where
  | space
  | light
  | medium
  | dark
deriving DecidableEq

/-- Rust `f64::round` (half away from zero) followed by the saturating
`as usize` cast, for a finite value: nonpositive results clamp to `0`
(via `Int.toNat`); saturation at `usizeMax` is applied at the call site. -/
def rustRound (q : ℚ) : ℕ := (⌊q + 1 / 2⌋).toNat

/-- `(v / max_value as f64 * cli_width as f64).round() as usize`
(src/main.rs:111-117). When `max_value = 0` the `f64` division yields
`NaN` (for `v = 0`) or `±∞`; `NaN * cw`, and `∞ * 0`, are `NaN`, which the
saturating cast sends to `0`, while `+∞` saturates to `usize::MAX`. -/
def posn (v : ℚ) (max_value cli_width : ℕ) : ℕ :=
  if max_value = 0 then
    if v = 0 ∨ cli_width = 0 then 0 else usizeMax
  else
    min (rustRound (v / (max_value : ℚ) * (cli_width : ℚ))) usizeMax

/-- `width as usize - 40` (src/main.rs:109): the unconditional subtraction,
wrapping on underflow. -/
def cliWidth (width : ℕ) : ℕ := usizeSub width 40

/-- The glyph sequence printed by `plot_box_diagram` between the two labels
(src/main.rs:118-140), as a function of the distribution, `max_value`, and
the already-computed canvas width: each Rust loop `for _ in a..b` emits
`b - a` glyphs (zero when `b ≤ a`, matching truncated `ℕ` subtraction), and
the single dark median glyph is emitted unconditionally. -/
def barGlyphs (d : Distribution) (max_value cli_width : ℕ) : List Glyph :=
  let pmin := posn (d.min : ℚ) max_value cli_width
  let plq := posn d.lower_quartile max_value cli_width
  let pmed := posn d.median max_value cli_width
  let puq := posn d.upper_quartile max_value cli_width
  let pmax := posn (d.max : ℚ) max_value cli_width
  List.replicate pmin .space ++
  List.replicate (plq - pmin) .light ++
  List.replicate (pmed - plq) .medium ++
  [.dark] ++
  List.replicate (puq - pmed) .medium ++
  List.replicate (pmax - puq) .light ++
  List.replicate (cli_width - pmax) .space

/-- `plot_box_diagram` (src/main.rs:105-145) restricted to its glyph output:
derives the canvas width from the terminal width and renders the bar. -/
def plot_box_diagram (d : Distribution) (max_value width : ℕ) : List Glyph :=
  barGlyphs d max_value (cliWidth width)

/-- Outcome of a run of `main` after the sizes have been collected. -/
inductive RunOutcome where
  | noFiles
  | panicked (p : Panic)
  | report (d : Distribution) (bar : List Glyph)
deriving DecidableEq

/-- `main` from the point the size list exists (src/main.rs:151-158): an
empty list prints "No files found in the directory" and returns before the
calculator runs; otherwise the distribution is computed and plotted with
`max_value = dist.max` and the detected terminal width (or the default 80). -/
def run_on_sizes (width : ℕ) (sizes : List ℕ) : RunOutcome :=
  if sizes.isEmpty then
    .noFiles
  else
    match from_vec sizes with
    | .error p => .panicked p
    | .ok d => .report d (plot_box_diagram d d.max width)

/-! ## Basic facts about the sorted list -/

lemma sortedSizes_sorted (sizes : List ℕ) : (sortedSizes sizes).Sorted (· ≤ ·) :=
  List.sorted_insertionSort _ _

lemma sortedSizes_perm (sizes : List ℕ) : (sortedSizes sizes).Perm sizes :=
  List.perm_insertionSort _ _

lemma sortedSizes_length (sizes : List ℕ) : (sortedSizes sizes).length = sizes.length :=
  (sortedSizes_perm sizes).length_eq

/-- Two lists that are permutations of each other sort to the same list. -/
lemma sortedSizes_congr {l₁ l₂ : List ℕ} (h : l₁.Perm l₂) :
    sortedSizes l₁ = sortedSizes l₂ :=
  List.eq_of_perm_of_sorted
    ((sortedSizes_perm l₁).trans (h.trans (sortedSizes_perm l₂).symm))
    (sortedSizes_sorted l₁) (sortedSizes_sorted l₂)

lemma from_vec_congr {l₁ l₂ : List ℕ} (h : l₁.Perm l₂) : from_vec l₁ = from_vec l₂ := by
  simp only [from_vec, sortedSizes_congr h]

/-- In a sorted list, the element at a smaller index is at most the element
at a larger in-bounds index. -/
lemma sortedGetD_mono {l : List ℕ} (hl : l.Sorted (· ≤ ·)) {i j : ℕ}
    (hij : i ≤ j) (hj : j < l.length) : l.getD i 0 ≤ l.getD j 0 := by
  have hi : i < l.length := lt_of_le_of_lt hij hj
  rw [List.getD_eq_getElem l 0 hi, List.getD_eq_getElem l 0 hj]
  exact hl.rel_get_of_le (Fin.mk_le_mk.mpr hij)

/-- Every member of a sorted list is at least the head. -/
lemma sortedGetD_zero_le {l : List ℕ} (hl : l.Sorted (· ≤ ·)) {x : ℕ} (hx : x ∈ l) :
    l.getD 0 0 ≤ x := by
  obtain ⟨i, hi⟩ := List.mem_iff_get.mp hx
  simp only [List.get_eq_getElem] at hi
  have := sortedGetD_mono hl (Nat.zero_le i.1) i.2
  rwa [List.getD_eq_getElem l 0 i.2, hi] at this

/-- Every member of a sorted list is at most the last element. -/
lemma sortedGetD_le_last {l : List ℕ} (hl : l.Sorted (· ≤ ·)) {x : ℕ} (hx : x ∈ l) :
    x ≤ l.getD (l.length - 1) 0 := by
  obtain ⟨i, hi⟩ := List.mem_iff_get.mp hx
  have hlast : l.length - 1 < l.length := by
    have : 0 < l.length := List.length_pos.mpr (List.ne_nil_of_mem hx)
    omega
  simp only [List.get_eq_getElem] at hi
  have := sortedGetD_mono hl (Nat.le_sub_one_of_lt i.2) hlast
  rwa [List.getD_eq_getElem l 0 i.2, hi] at this

/-! ## Arithmetic helpers for the casts and interpolated averages -/

/-- The `u64 → f64` cast is exact up to `2^53`. -/
lemma toF64_small {n : ℕ} (h : n ≤ 2 ^ 53) : toF64 n = n := by
  rcases eq_or_lt_of_le h with rfl | hlt
  · with_unfolding_all decide
  · rw [toF64, if_pos hlt]

/-- When the summed pair stays within `2^53`, neither the wrap nor the
`f64` cast changes it, and the computed value is the exact average. -/
lemma avgWrap_exact {a b : ℕ} (h : a + b ≤ 2 ^ 53) :
    avgWrap a b = ((a : ℚ) + (b : ℚ)) / 2 := by
  have hlt : a + b < u64Mod := by
    rw [u64Mod]; omega
  rw [avgWrap, wrapAdd, Nat.mod_eq_of_lt hlt, toF64_small h, Nat.cast_add]

/-- `getD _ 0` respects any elementwise upper bound (the default 0 included). -/
lemma getD_le_bound {l : List ℕ} {B : ℕ} (h : ∀ x ∈ l, x ≤ B) (i : ℕ) :
    l.getD i 0 ≤ B := by
  by_cases hi : i < l.length
  · rw [List.getD_eq_getElem l 0 hi]
    exact h _ (List.getElem_mem hi)
  · rw [List.getD_eq_default l 0 (le_of_not_lt hi)]
    exact Nat.zero_le B

lemma le_avg {m a b : ℕ} (h1 : m ≤ a) (h2 : m ≤ b) :
    (m : ℚ) ≤ ((a : ℚ) + (b : ℚ)) / 2 := by
  have h1' : (m : ℚ) ≤ a := Nat.cast_le.mpr h1
  have h2' : (m : ℚ) ≤ b := Nat.cast_le.mpr h2
  linarith

lemma avg_le {a b M : ℕ} (h1 : a ≤ M) (h2 : b ≤ M) :
    ((a : ℚ) + (b : ℚ)) / 2 ≤ (M : ℚ) := by
  have h1' : (a : ℚ) ≤ M := Nat.cast_le.mpr h1
  have h2' : (b : ℚ) ≤ M := Nat.cast_le.mpr h2
  linarith

lemma avg_le_avg {a b c d : ℕ} (h1 : a ≤ c) (h2 : b ≤ d) :
    ((a : ℚ) + (b : ℚ)) / 2 ≤ ((c : ℚ) + (d : ℚ)) / 2 := by
  have h1' : (a : ℚ) ≤ c := Nat.cast_le.mpr h1
  have h2' : (b : ℚ) ≤ d := Nat.cast_le.mpr h2
  linarith

/-! ## The five-number ordering chain on a sorted list -/

lemma quartile_chain {s : List ℕ} (hs : s.Sorted (· ≤ ·)) (hn : s.length ≠ 0)
    (hsm : ∀ x ∈ s, x ≤ 2 ^ 52) :
    (s.getD 0 0 : ℚ) ≤ lowerQuartileOf s ∧
    lowerQuartileOf s ≤ medianOf s ∧
    medianOf s ≤ upperQuartileOf s ∧
    upperQuartileOf s ≤ (s.getD (s.length - 1) 0 : ℚ) := by
  set n := s.length with hn_def
  have mono : ∀ {i j : ℕ}, i ≤ j → j < n → s.getD i 0 ≤ s.getD j 0 :=
    fun hij hj => sortedGetD_mono hs hij hj
  have hB : ∀ i, s.getD i 0 ≤ 2 ^ 52 := getD_le_bound hsm
  have havg : ∀ i j, avgWrap (s.getD i 0) (s.getD j 0) =
      ((s.getD i 0 : ℚ) + (s.getD j 0 : ℚ)) / 2 := fun i j => by
    have hi := hB i
    have hj := hB j
    exact avgWrap_exact (by omega)
  have hcast : ∀ i, (toF64 (s.getD i 0) : ℚ) = (s.getD i 0 : ℚ) := fun i => by
    rw [toF64_small (le_trans (hB i) (by norm_num))]
  by_cases h4 : n % 4 = 0
  · have h2 : n % 2 = 0 := by omega
    have hge : 4 ≤ n := by omega
    simp only [medianOf, lowerQuartileOf, upperQuartileOf, ← hn_def, if_pos h2, if_pos h4]
    rw [havg, havg, havg]
    refine ⟨le_avg ?_ ?_, avg_le_avg ?_ ?_, avg_le_avg ?_ ?_, avg_le ?_ ?_⟩
    · exact mono (by omega) (by omega)
    · exact mono (by omega) (by omega)
    · exact mono (by omega) (by omega)
    · exact mono (by omega) (by omega)
    · exact mono (by omega) (by omega)
    · exact mono (by omega) (by omega)
    · exact mono (by omega) (by omega)
    · exact mono (by omega) (by omega)
  · by_cases h2 : n % 2 = 0
    · have hge : 2 ≤ n := by omega
      simp only [medianOf, lowerQuartileOf, upperQuartileOf, ← hn_def, if_pos h2, if_neg h4]
      rw [havg, hcast, hcast]
      refine ⟨Nat.cast_le.mpr (mono (by omega) (by omega)),
              le_avg ?_ ?_, avg_le ?_ ?_,
              Nat.cast_le.mpr (mono (by omega) (by omega))⟩
      · exact mono (by omega) (by omega)
      · exact mono (by omega) (by omega)
      · exact mono (by omega) (by omega)
      · exact mono (by omega) (by omega)
    · have hge : 1 ≤ n := by omega
      simp only [medianOf, lowerQuartileOf, upperQuartileOf, ← hn_def, if_neg h2, if_neg h4]
      rw [hcast, hcast, hcast]
      exact ⟨Nat.cast_le.mpr (mono (by omega) (by omega)),
             Nat.cast_le.mpr (mono (by omega) (by omega)),
             Nat.cast_le.mpr (mono (by omega) (by omega)),
             Nat.cast_le.mpr (mono (by omega) (by omega))⟩

/-! ## Destructuring `from_vec` -/

lemma from_vec_ok {sizes : List ℕ} (h : sizes ≠ []) :
    from_vec sizes = .ok ⟨(sortedSizes sizes).getD 0 0,
      (sortedSizes sizes).getD ((sortedSizes sizes).length - 1) 0,
      medianOf (sortedSizes sizes), lowerQuartileOf (sortedSizes sizes),
      upperQuartileOf (sortedSizes sizes)⟩ := by
  have hlen : (sortedSizes sizes).length ≠ 0 := by
    rw [sortedSizes_length]
    exact fun hc => h (List.length_eq_zero.mp hc)
  rw [from_vec]
  simp [hlen]

lemma from_vec_nil : from_vec [] = .error .indexOutOfBounds := by
  with_unfolding_all decide

/-- Inversion: a successful `from_vec` determines the input as non-empty and
every field as the corresponding function of the sorted list. -/
lemma from_vec_inv {sizes : List ℕ} {d : Distribution}
    (h : from_vec sizes = .ok d) :
    sizes ≠ [] ∧
    d.min = (sortedSizes sizes).getD 0 0 ∧
    d.max = (sortedSizes sizes).getD ((sortedSizes sizes).length - 1) 0 ∧
    d.median = medianOf (sortedSizes sizes) ∧
    d.lower_quartile = lowerQuartileOf (sortedSizes sizes) ∧
    d.upper_quartile = upperQuartileOf (sortedSizes sizes) := by
  by_cases hsz : sizes = []
  · subst hsz
    rw [from_vec_nil] at h
    exact absurd h (by simp)
  · rw [from_vec_ok hsz] at h
    obtain rfl := (Except.ok.inj h).symm
    exact ⟨hsz, rfl, rfl, rfl, rfl, rfl⟩


/-- The calculator's output on the overflowing input `[u64::MAX, u64::MAX]`:
the median pair sums to `2^65 - 2`, which wraps to `2^64 - 2`, whose `f64`
cast rounds up to `2^64`, so the median is `2^63`; both quartiles are the
element `2^64 - 1`, whose `f64` cast also rounds up to `2^64`. -/
lemma from_vec_overflow_pair :
    from_vec [usizeMax, usizeMax] =
      .ok ⟨usizeMax, usizeMax, (2 ^ 63 : ℚ), (2 ^ 64 : ℚ), (2 ^ 64 : ℚ)⟩ := by
  have hs : sortedSizes [usizeMax, usizeMax] = [usizeMax, usizeMax] := by
    with_unfolding_all decide
  have hw : wrapAdd 18446744073709551615 18446744073709551615 = 18446744073709551614 := by
    with_unfolding_all decide
  have ht1 : toF64 18446744073709551614 = 18446744073709551616 := by
    with_unfolding_all decide
  have ht2 : toF64 18446744073709551615 = 18446744073709551616 := by
    with_unfolding_all decide
  simp only [from_vec, hs]
  norm_num [medianOf, lowerQuartileOf, upperQuartileOf, avgWrap, hw, ht1, ht2, usizeMax]

/-! ## Claim C1 -/

/-- C1, as stated, is false: it asserts the statistic is the *exact* average
of the two selected elements whenever `(n*m) mod d = 0`, for every sequence
of `u64` sizes. On `[u64::MAX, u64::MAX]` the `u64` addition wraps to
`2^64 - 2` and the `f64` cast rounds that to `2^64`, so the computed median
is `2^63`, while the spec's rule (`specStat`) gives the exact average
`u64::MAX`. -/
theorem c1_counterexample :
    from_vec [usizeMax, usizeMax] =
      .ok ⟨usizeMax, usizeMax, (2 ^ 63 : ℚ), (2 ^ 64 : ℚ), (2 ^ 64 : ℚ)⟩ ∧
    specStat (sortedSizes [usizeMax, usizeMax]) 1 2 = (usizeMax : ℚ) ∧
    (2 ^ 63 : ℚ) ≠ (usizeMax : ℚ) := by
  refine ⟨from_vec_overflow_pair, ?_, by norm_num [usizeMax]⟩
  have hs : sortedSizes [usizeMax, usizeMax] = [usizeMax, usizeMax] := by
    with_unfolding_all decide
  rw [hs]
  norm_num [specStat, usizeMax]

/-- C1 (amended): for every non-empty input whose sizes are all at most
`2^52` — so that every selected element and every averaged pair sum casts
to `f64` exactly, and the `u64` addition cannot overflow — each of the
three statistics computed by `Distribution::from_vec` equals the spec's
uniform rule `specStat` with `(m, d) = (1, 2)` for the median, `(1, 4)`
for the lower quartile and `(3, 4)` for the upper quartile (the code's
condition `n % 4 = 0` for the upper quartile is equivalent to the rule's
`(n*3) mod 4 = 0`). For larger sizes the `as f64` casts round (and
overflowing pair sums additionally wrap), so the computed statistic can
differ from the rule's exact value. -/
theorem c1_uniform_rule {sizes : List ℕ} {d : Distribution}
    (hok : from_vec sizes = .ok d) (hsm : ∀ x ∈ sizes, x ≤ 2 ^ 52) :
    d.median = specStat (sortedSizes sizes) 1 2 ∧
    d.lower_quartile = specStat (sortedSizes sizes) 1 4 ∧
    d.upper_quartile = specStat (sortedSizes sizes) 3 4 := by
  obtain ⟨hne, hmin, hmax, hmed, hlq, huq⟩ := from_vec_inv hok
  have hsm' : ∀ x ∈ sortedSizes sizes, x ≤ 2 ^ 52 := fun x hx =>
    hsm x ((sortedSizes_perm sizes).mem_iff.mp hx)
  have hB : ∀ i, (sortedSizes sizes).getD i 0 ≤ 2 ^ 52 := getD_le_bound hsm'
  have havg : ∀ i j,
      avgWrap ((sortedSizes sizes).getD i 0) ((sortedSizes sizes).getD j 0) =
        (((sortedSizes sizes).getD i 0 : ℚ) +
         ((sortedSizes sizes).getD j 0 : ℚ)) / 2 := fun i j => by
    have hi := hB i
    have hj := hB j
    exact avgWrap_exact (by omega)
  have hcast : ∀ i, (toF64 ((sortedSizes sizes).getD i 0) : ℚ) =
      ((sortedSizes sizes).getD i 0 : ℚ) := fun i => by
    rw [toF64_small (le_trans (hB i) (by norm_num))]
  refine ⟨?_, ?_, ?_⟩
  · rw [hmed, medianOf, specStat, mul_one]
    by_cases h2 : (sortedSizes sizes).length % 2 = 0
    · rw [if_pos h2, if_pos h2, havg]
    · rw [if_neg h2, if_neg h2, hcast]
  · rw [hlq, lowerQuartileOf, specStat, mul_one]
    by_cases h4 : (sortedSizes sizes).length % 4 = 0
    · rw [if_pos h4, if_pos h4, havg]
    · rw [if_neg h4, if_neg h4, hcast]
  · rw [huq, upperQuartileOf, specStat]
    have hiff : (sortedSizes sizes).length * 3 % 4 = 0 ↔
        (sortedSizes sizes).length % 4 = 0 := by omega
    by_cases h4 : (sortedSizes sizes).length % 4 = 0
    · rw [if_pos h4, if_pos (hiff.mpr h4), havg]
    · rw [if_neg h4, if_neg (fun hc => h4 (hiff.mp hc)), hcast]

/-- Witness for C1: the rule instantiated on `[1, 2, 3, 4, 5]`. -/
theorem c1_witness :
    (⟨1, 5, 3, 2, 4⟩ : Distribution).median = specStat (sortedSizes [1, 2, 3, 4, 5]) 1 2 ∧
    (⟨1, 5, 3, 2, 4⟩ : Distribution).lower_quartile =
      specStat (sortedSizes [1, 2, 3, 4, 5]) 1 4 ∧
    (⟨1, 5, 3, 2, 4⟩ : Distribution).upper_quartile =
      specStat (sortedSizes [1, 2, 3, 4, 5]) 3 4 :=
  @c1_uniform_rule [1, 2, 3, 4, 5] ⟨1, 5, 3, 2, 4⟩
    (by with_unfolding_all decide) (by with_unfolding_all decide)

/-! ## Claim C2 -/

/-- C2, as stated (for *every* non-empty input), is false: on
`[u64::MAX, u64::MAX]` the wrapped-and-rounded median `2^63` drops below
the lower quartile `2^64` (the rounded cast of `u64::MAX`), breaking
`lower_quartile ≤ median`. -/
theorem c2_counterexample :
    from_vec [usizeMax, usizeMax] =
      .ok ⟨usizeMax, usizeMax, (2 ^ 63 : ℚ), (2 ^ 64 : ℚ), (2 ^ 64 : ℚ)⟩ ∧
    ¬ ((2 ^ 64 : ℚ) ≤ (2 ^ 63 : ℚ)) :=
  ⟨from_vec_overflow_pair, by norm_num⟩

/-- C2 (amended): for every non-empty input whose sizes are all at most
`2^52` — so that every `f64` cast involved is exact and the `u64` addition
cannot overflow — the returned `Distribution` satisfies
`min ≤ lower_quartile ≤ median ≤ upper_quartile ≤ max`. For larger sizes
the casts round: `[2^53 + 1]` yields `lower_quartile = 2^53 < min`, and an
overflowing pair pushes the median below the lower quartile. -/
theorem c2_five_number_chain {sizes : List ℕ} {d : Distribution}
    (hok : from_vec sizes = .ok d) (hsm : ∀ x ∈ sizes, x ≤ 2 ^ 52) :
    (d.min : ℚ) ≤ d.lower_quartile ∧ d.lower_quartile ≤ d.median ∧
    d.median ≤ d.upper_quartile ∧ d.upper_quartile ≤ (d.max : ℚ) := by
  obtain ⟨hne, hmin, hmax, hmed, hlq, huq⟩ := from_vec_inv hok
  have hlen : (sortedSizes sizes).length ≠ 0 := by
    rw [sortedSizes_length]
    exact fun hc => hne (List.length_eq_zero.mp hc)
  have hsm' : ∀ x ∈ sortedSizes sizes, x ≤ 2 ^ 52 := fun x hx =>
    hsm x ((sortedSizes_perm sizes).mem_iff.mp hx)
  rw [hmin, hmax, hmed, hlq, huq]
  exact quartile_chain (sortedSizes_sorted sizes) hlen hsm'

/-- Witness for C2: the chain instantiated on `[10, 20, 30, 40]`. -/
theorem c2_witness :
    ((10 : ℕ) : ℚ) ≤ (⟨10, 40, 25, 15, 35⟩ : Distribution).lower_quartile ∧
    (⟨10, 40, 25, 15, 35⟩ : Distribution).lower_quartile ≤
      (⟨10, 40, 25, 15, 35⟩ : Distribution).median ∧
    (⟨10, 40, 25, 15, 35⟩ : Distribution).median ≤
      (⟨10, 40, 25, 15, 35⟩ : Distribution).upper_quartile ∧
    (⟨10, 40, 25, 15, 35⟩ : Distribution).upper_quartile ≤ ((40 : ℕ) : ℚ) :=
  @c2_five_number_chain [10, 20, 30, 40] ⟨10, 40, 25, 15, 35⟩
    (by with_unfolding_all decide) (by with_unfolding_all decide)

/-! ## Claim C3 -/

/-- C3, as stated, is false: `Distribution::from_vec` on an empty sequence
does not produce an explicit `EmptyInput` error value — no such error type
exists anywhere in the program — it performs the out-of-bounds index
`sizes[0]`, i.e. it panics. -/
theorem c3_counterexample : from_vec [] = Except.error Panic.indexOutOfBounds :=
  from_vec_nil

/-- C3 (amended): the calculator itself panics with an out-of-bounds index
on empty input; the guard lives in `main`, which checks `sizes.is_empty()`
first, prints "No files found in the directory" and returns, so the
calculator is never reached with an empty sequence and every non-empty
sequence produces a report without panicking. -/
theorem c3_empty_input_behavior :
    (∀ width, run_on_sizes width [] = .noFiles) ∧
    from_vec [] = Except.error Panic.indexOutOfBounds ∧
    (∀ width sizes, sizes ≠ [] → ∃ d bar, run_on_sizes width sizes = .report d bar) := by
  refine ⟨fun w => rfl, from_vec_nil, fun w sizes h => ?_⟩
  have hne : sizes.isEmpty = false := by
    cases sizes with
    | nil => exact absurd rfl h
    | cons a l => rfl
  rw [run_on_sizes, hne, from_vec_ok h]
  exact ⟨_, _, rfl⟩

/-- Witness for C3: the guard on `[]` and a successful run on `[9999]`. -/
theorem c3_witness :
    run_on_sizes 80 [] = RunOutcome.noFiles ∧
    (∃ d bar, run_on_sizes 80 [9999] = RunOutcome.report d bar) :=
  ⟨c3_empty_input_behavior.1 80,
   c3_empty_input_behavior.2.2 80 [9999] (by simp)⟩

/-! ## Claim C7 -/

/-- C7: the `min` field of a successfully computed `Distribution` is a
member of the input that bounds every input element from below, the `max`
field is a member bounding every element from above, and both fields are
unchanged when the calculator runs on any permutation of the input. -/
theorem c7_min_max {sizes : List ℕ} {d : Distribution}
    (hok : from_vec sizes = .ok d) :
    d.min ∈ sizes ∧ d.max ∈ sizes ∧
    (∀ x ∈ sizes, d.min ≤ x ∧ x ≤ d.max) ∧
    (∀ l₂, sizes.Perm l₂ → ∀ d₂, from_vec l₂ = .ok d₂ →
      d₂.min = d.min ∧ d₂.max = d.max) := by
  obtain ⟨hne, hmin, hmax, -, -, -⟩ := from_vec_inv hok
  have hs := sortedSizes_sorted sizes
  have hperm := sortedSizes_perm sizes
  have hlen : 0 < (sortedSizes sizes).length := by
    rw [sortedSizes_length]
    exact List.length_pos.mpr hne
  refine ⟨?_, ?_, ?_, ?_⟩
  · rw [hmin, List.getD_eq_getElem _ 0 hlen]
    exact hperm.mem_iff.mp (List.getElem_mem hlen)
  · have hl : (sortedSizes sizes).length - 1 < (sortedSizes sizes).length := by omega
    rw [hmax, List.getD_eq_getElem _ 0 hl]
    exact hperm.mem_iff.mp (List.getElem_mem hl)
  · intro x hx
    have hx' : x ∈ sortedSizes sizes := hperm.mem_iff.mpr hx
    exact ⟨hmin ▸ sortedGetD_zero_le hs hx', hmax ▸ sortedGetD_le_last hs hx'⟩
  · intro l₂ hp d₂ hok₂
    rw [from_vec_congr hp, hok₂] at hok
    obtain rfl := Except.ok.inj hok
    exact ⟨rfl, rfl⟩

/-- Witness for C7: instantiated on `[5, 7]` (whose distribution is
`⟨5, 7, 6, 5, 7⟩`), with the bound applied at the element `7`. -/
theorem c7_witness :
    (⟨5, 7, 6, 5, 7⟩ : Distribution).min ∈ [5, 7] ∧
    (⟨5, 7, 6, 5, 7⟩ : Distribution).min ≤ 7 ∧
    7 ≤ (⟨5, 7, 6, 5, 7⟩ : Distribution).max := by
  have h := @c7_min_max [5, 7] ⟨5, 7, 6, 5, 7⟩ (by with_unfolding_all decide)
  exact ⟨h.1, h.2.2.1 7 (by simp)⟩

/-! ## Claim C8 -/

/-- C8: the two worked examples of §8. For `[10, 20, 30, 40]` the calculator
returns `min = 10`, `max = 40`, `median = 25`, `lower_quartile = 15`,
`upper_quartile = 35`; for `[1, 2, 3, 4, 5]` it returns `min = 1`,
`max = 5`, `median = 3`, `lower_quartile = 2`, `upper_quartile = 4`. -/
theorem c8_worked_examples :
    from_vec [10, 20, 30, 40] = .ok ⟨10, 40, 25, 15, 35⟩ ∧
    from_vec [1, 2, 3, 4, 5] = .ok ⟨1, 5, 3, 2, 4⟩ :=
  ⟨by with_unfolding_all decide, by with_unfolding_all decide⟩

/-! ## Claim C9 -/

/-- C9: the calculator's entire result — all five fields — depends only on
the multiset of input values: permuting the input leaves `from_vec`'s
output unchanged. -/
theorem c9_permutation_invariant {l₁ l₂ : List ℕ} (h : l₁.Perm l₂) :
    from_vec l₁ = from_vec l₂ :=
  from_vec_congr h

/-- Witness for C9: two permutations of `{1, 2, 3}`. -/
theorem c9_witness : from_vec [2, 1, 3] = from_vec [3, 1, 2] :=
  c9_permutation_invariant (by decide)

/-! ## Claim C10 -/

/-- C10, as stated, is false under its own no-overflow hypothesis: the
claim only excludes pair sums above `2^64 - 1`, but the `as f64` cast of
the `u64` sum already rounds for sums in `(2^53, 2^64)`. On `[0, 2^53 + 1]`
the median pair `(0, 2^53 + 1)` satisfies the no-overflow hypothesis, yet
the code computes `toF64 (2^53 + 1) / 2 = 2^52`, not the exact average
`2^52 + 1/2`. -/
theorem c10_counterexample :
    pairsNoOverflow [0, 9007199254740993] ∧
    from_vec [0, 9007199254740993] =
      .ok ⟨0, 9007199254740993, (4503599627370496 : ℚ), 0, (9007199254740992 : ℚ)⟩ ∧
    (4503599627370496 : ℚ) ≠
      (((0 : ℕ) : ℚ) + ((9007199254740993 : ℕ) : ℚ)) / 2 := by
  refine ⟨by with_unfolding_all decide, ?_, by norm_num⟩
  have hs : sortedSizes [0, 9007199254740993] = [0, 9007199254740993] := by
    with_unfolding_all decide
  have hw : wrapAdd 0 9007199254740993 = 9007199254740993 := by
    with_unfolding_all decide
  have ht1 : toF64 9007199254740993 = 9007199254740992 := by
    with_unfolding_all decide
  have ht0 : toF64 0 = 0 := by with_unfolding_all decide
  simp only [from_vec, hs]
  norm_num [medianOf, lowerQuartileOf, upperQuartileOf, avgWrap, hw, ht1, ht0]

/-- C10 (amended): the interpolation adds the two neighboring `u64`
elements before casting and halving, and the computed statistic equals the
exact average of the pair when the pair's sum is at most `2^53` — the
range in which the `as f64` cast of the sum is exact (the halving is
always exact). The claim's weaker bound `2^64 - 1` only rules out the
wrap, not the rounding of the cast. -/
theorem c10_exact_average {sizes : List ℕ} {d : Distribution}
    (hok : from_vec sizes = .ok d) (hfit : pairsFitF64 sizes) :
    ((sortedSizes sizes).length % 2 = 0 →
      d.median =
        (((sortedSizes sizes).getD ((sortedSizes sizes).length / 2 - 1) 0 : ℚ) +
         ((sortedSizes sizes).getD ((sortedSizes sizes).length / 2) 0 : ℚ)) / 2) ∧
    ((sortedSizes sizes).length % 4 = 0 →
      d.lower_quartile =
        (((sortedSizes sizes).getD ((sortedSizes sizes).length / 4 - 1) 0 : ℚ) +
         ((sortedSizes sizes).getD ((sortedSizes sizes).length / 4) 0 : ℚ)) / 2 ∧
      d.upper_quartile =
        (((sortedSizes sizes).getD ((sortedSizes sizes).length * 3 / 4 - 1) 0 : ℚ) +
         ((sortedSizes sizes).getD ((sortedSizes sizes).length * 3 / 4) 0 : ℚ)) / 2) := by
  obtain ⟨hne, -, -, hmed, hlq, huq⟩ := from_vec_inv hok
  obtain ⟨hfit2, hfit4⟩ := hfit
  constructor
  · intro h2
    rw [hmed, medianOf, if_pos h2, avgWrap_exact (hfit2 h2)]
  · intro h4
    exact ⟨by rw [hlq, lowerQuartileOf, if_pos h4, avgWrap_exact (hfit4 h4).1],
           by rw [huq, upperQuartileOf, if_pos h4, avgWrap_exact (hfit4 h4).2]⟩

/-- Witness for C10: the median of `[10, 20, 30, 40]` is the exact average
of the two middle sorted elements. -/
theorem c10_witness :
    (⟨10, 40, 25, 15, 35⟩ : Distribution).median =
      (((sortedSizes [10, 20, 30, 40]).getD
          ((sortedSizes [10, 20, 30, 40]).length / 2 - 1) 0 : ℚ) +
       ((sortedSizes [10, 20, 30, 40]).getD
          ((sortedSizes [10, 20, 30, 40]).length / 2) 0 : ℚ)) / 2 :=
  (@c10_exact_average [10, 20, 30, 40] ⟨10, 40, 25, 15, 35⟩
    (by with_unfolding_all decide) (by with_unfolding_all decide)).1
    (by with_unfolding_all decide)

/-! ## Claim C4 -/

/-- C4, as stated, is false in its glyph-range table: the dark median
column is *inserted* in addition to the two full medium runs, not
overlaid, so the bar occupies `canvas_width + 1 = 101` columns, not
exactly `canvas_width = 100` (and consequently the second medium run covers
columns 51–75 and the trailing light run 76–100, not 51–74 and 75–99). -/
theorem c4_counterexample :
    (barGlyphs ⟨0, 100, 50, 25, 75⟩ 100 100).length ≠ 100 := by
  have h : (barGlyphs ⟨0, 100, 50, 25, 75⟩ 100 100).length = 101 := by
    with_unfolding_all decide
  omega

/-- C4 (amended): with `max_value = 100` and `canvas_width = 100` each
summary value maps to the column equal to itself, and the bar is exactly
25 light, 25 medium, 1 dark, 25 medium, 25 light glyphs — light at columns
0–24, medium at 25–49, dark at 50, medium at 51–75, light at 76–100,
occupying `canvas_width + 1 = 101` columns. -/
theorem c4_bar_layout :
    posn ((0 : ℕ) : ℚ) 100 100 = 0 ∧
    posn (25 : ℚ) 100 100 = 25 ∧
    posn (50 : ℚ) 100 100 = 50 ∧
    posn (75 : ℚ) 100 100 = 75 ∧
    posn ((100 : ℕ) : ℚ) 100 100 = 100 ∧
    barGlyphs ⟨0, 100, 50, 25, 75⟩ 100 100 =
      List.replicate 25 .light ++ List.replicate 25 .medium ++ [.dark] ++
      List.replicate 25 .medium ++ List.replicate 25 .light ∧
    (barGlyphs ⟨0, 100, 50, 25, 75⟩ 100 100).length = 101 := by
  have h0 : posn ((0 : ℕ) : ℚ) 100 100 = 0 := by with_unfolding_all decide
  have h25 : posn (25 : ℚ) 100 100 = 25 := by with_unfolding_all decide
  have h50 : posn (50 : ℚ) 100 100 = 50 := by with_unfolding_all decide
  have h75 : posn (75 : ℚ) 100 100 = 75 := by with_unfolding_all decide
  have h100 : posn ((100 : ℕ) : ℚ) 100 100 = 100 := by with_unfolding_all decide
  have hbar : barGlyphs ⟨0, 100, 50, 25, 75⟩ 100 100 =
      List.replicate 25 .light ++ List.replicate 25 .medium ++ [.dark] ++
      List.replicate 25 .medium ++ List.replicate 25 .light := by
    simp only [barGlyphs, h0, h25, h50, h75, h100]
    norm_num
  refine ⟨h0, h25, h50, h75, h100, hbar, ?_⟩
  rw [hbar]
  simp

/-! ## Claim C5 -/

/-- C5, as stated, is false: for a terminal width below the 40-column
margin the renderer neither clamps the canvas width to 1 nor raises an
explicit error — `width as usize - 40` underflows, wrapping (in release
builds) to an astronomically large canvas width. -/
theorem c5_counterexample : cliWidth 20 = u64Mod - 20 ∧ cliWidth 20 ≠ 1 := by
  constructor <;> with_unfolding_all decide

/-- C5 (amended): for every terminal width strictly below the 40-column
margin the canvas-width subtraction is performed unconditionally and
underflows, wrapping to `2^64 - (40 - width)` under release semantics (a
debug build would panic on the same subtraction); no clamping and no
explicit degenerate-canvas error exist. -/
theorem c5_underflow_wraps {width : ℕ} (h : width < 40) :
    cliWidth width = u64Mod - (40 - width) := by
  simp only [cliWidth, usizeSub, u64Mod]
  omega

/-- Witness for C5: a 20-column terminal. -/
theorem c5_witness : cliWidth 20 = u64Mod - (40 - 20) :=
  c5_underflow_wraps (by norm_num)

/-! ## Claim C6 -/

/-- C6, as stated (for *every* `Distribution`), is false: with
`max_value = 0` a nonzero summary value divides to `+∞`, whose saturating
`as usize` cast is `usize::MAX`, not column 0. -/
theorem c6_counterexample :
    posn ((⟨1, 1, 1, 1, 1⟩ : Distribution).min : ℚ) 0 5 = usizeMax ∧ usizeMax ≠ 0 := by
  constructor <;> with_unfolding_all decide

/-- C6 (amended): the renderer is total (it cannot panic in this model),
and in the only case where `max_value = 0` actually arises from the
program — `main` passes `max_value = dist.max`, and a computed
distribution with `max = 0` has every summary value equal to 0 — every
value maps to column 0: the NaN of `0.0 / 0.0` casts to 0, so the bar is
the unconditional dark glyph followed by `canvas_width` blanks. -/
theorem c6_zero_max_value {sizes : List ℕ} {d : Distribution}
    (hok : from_vec sizes = .ok d) (hmax : d.max = 0) :
    ∀ cw, barGlyphs d 0 cw = Glyph.dark :: List.replicate cw Glyph.space := by
  obtain ⟨hne, hmin, hmaxf, hmed, hlq, huq⟩ := from_vec_inv hok
  have hs := sortedSizes_sorted sizes
  have hlen : (sortedSizes sizes).length ≠ 0 := by
    rw [sortedSizes_length]
    exact fun hc => hne (List.length_eq_zero.mp hc)
  have hall : ∀ i, i < (sortedSizes sizes).length → (sortedSizes sizes).getD i 0 = 0 := by
    intro i hi
    have hl : (sortedSizes sizes).length - 1 < (sortedSizes sizes).length := by omega
    have hle := sortedGetD_mono hs (Nat.le_sub_one_of_lt hi) hl
    rw [← hmaxf, hmax] at hle
    omega
  have h0 : d.min = 0 := by
    rw [hmin]
    exact hall 0 (by omega)
  have hmed0 : d.median = 0 := by
    rw [hmed, medianOf]
    by_cases h2 : (sortedSizes sizes).length % 2 = 0
    · rw [if_pos h2, hall _ (by omega), hall _ (by omega), avgWrap_exact (by norm_num)]
      norm_num
    · rw [if_neg h2, hall _ (by omega), toF64_small (by norm_num)]
      norm_num
  have hlq0 : d.lower_quartile = 0 := by
    rw [hlq, lowerQuartileOf]
    by_cases h4 : (sortedSizes sizes).length % 4 = 0
    · rw [if_pos h4, hall _ (by omega), hall _ (by omega), avgWrap_exact (by norm_num)]
      norm_num
    · rw [if_neg h4, hall _ (by omega), toF64_small (by norm_num)]
      norm_num
  have huq0 : d.upper_quartile = 0 := by
    rw [huq, upperQuartileOf]
    by_cases h4 : (sortedSizes sizes).length % 4 = 0
    · rw [if_pos h4, hall _ (by omega), hall _ (by omega), avgWrap_exact (by norm_num)]
      norm_num
    · rw [if_neg h4, hall _ (by omega), toF64_small (by norm_num)]
      norm_num
  intro cw
  have hp : posn 0 0 cw = 0 := by simp [posn]
  simp only [barGlyphs, h0, hmax, hmed0, hlq0, huq0, Nat.cast_zero, hp]
  simp [List.replicate]

/-- Witness for C6: the all-zero distribution (from input `[0]`) rendered at
`max_value = 0` on a 3-column canvas. -/
theorem c6_witness :
    barGlyphs ⟨0, 0, 0, 0, 0⟩ 0 3 = Glyph.dark :: List.replicate 3 Glyph.space :=
  @c6_zero_max_value [0] ⟨0, 0, 0, 0, 0⟩ (by with_unfolding_all decide) rfl 3
